import Mathlib

/-!
Verification of the ICY metadata parser (`@cloudradio/icy-parser`).

The repository has one core routine, `IcyParser.parseOnce`, which

  1. checks the `icy-metaint` response header (`Number(header)`; the guard
     `if (!metaint) throw` rejects `0` and `NaN` only),
  2. pulls byte chunks from a reader, discarding audio until `received`
     reaches the interval (`while (received < metaint)`), keeping only the
     most recent chunk in `leftover`,
  3. locates the metadata region: if `overflow = received - metaint > 0`,
     the tail `overflow` bytes of `leftover`, otherwise one further read,
  4. reads the length byte, accumulates `lengthByte * 16` payload bytes,
  5. slices, strips trailing NUL bytes and decodes the raw string, and
  6. releases the connection in a `finally` block.

We embed the routine shallowly.  A chunk is a list of byte values; a pull
source is, for the main development, a finite list of chunks — reading past
the end of the list models the reader reporting `done` (the reader of a
fetch body yields `value: undefined` together with `done: true`, and the
code treats `done || !value` alike).  An *empty* chunk (`some []`, a
zero-length `Uint8Array`) is a truthy value in JavaScript and is therefore
distinct from end-of-stream.  JavaScript-specific behaviours are embedded
explicitly where they matter:

  * `metaStart[0]` on an empty array is `undefined`, and
    `undefined * 16` is `NaN`; we model `metadataLength` as `Option Nat`
    with `none` playing the role of `NaN`:  the comparison
    `metadata.length < NaN` is `false`, and `slice(0, NaN)` slices to `0`.
  * `Array.prototype.slice` clamps a negative start index to
    `max(length + start, 0)` (`jsSliceFrom`).
  * `Number(null) = 0` and `Number` of a non-numeric string is `NaN`; the
    parsed header is modelled as `Option Int` with `none` for `NaN`
    (non-integral numeric values are outside the model; an integer-valued
    header already exercises every branch of the guard `if (!metaint)`).

The final `.replace(/\0+$/, "")` runs on the UTF-8 decoded string; since
the byte `0x00` decodes to `U+0000` and no other well-formed or ill-formed
byte sequence decodes to `U+0000`, stripping trailing NUL characters from
the decoded text agrees with decoding the trailing-NUL-stripped bytes, so
the development strips at the byte level (`stripTrailingNuls`).
-/

/-- A byte chunk delivered by one `reader.read()` (`Uint8Array`). -/
abbrev Chunk := List Nat

/-- A pull source: the finite sequence of chunks the reader will deliver;
reading past the end models `done` / `value: undefined`. -/
abbrev Source := List Chunk

/-- The three error messages `parseOnce` can throw. -/
inductive IcyError where
  /-- "Stream does not support ICY metadata" -/
  | unsupportedStream
  /-- "Stream ended before metadata was received" -/
  | streamEndedEarly
  /-- "Failed to read metadata from stream" -/
  | metadataReadFailed
deriving DecidableEq

/-- The data computed by a successful extraction: the length byte
(`metaStart[0]`, `none` when `metaStart` is empty so the index is
`undefined`), the sliced payload `metadata.slice(0, metadataLength)`, and
the raw bytes after stripping trailing NULs (`replace(/\0+$/, "")`). -/
structure ExtractOk where
  lengthByte : Option Nat
  sliced : List Nat
  raw : List Nat
deriving DecidableEq

/-- JavaScript `a.slice(start)` for an integer `start`: a negative start
counts from the end and is clamped at `0`. -/
def jsSliceFrom (a : List Nat) (start : Int) : List Nat :=
  if start < 0 then a.drop ((a.length : Int) + start).toNat else a.drop start.toNat

/-- `.replace(/\0+$/, "")` at the byte level: remove the maximal run of
trailing `0x00` bytes. -/
def stripTrailingNuls (l : List Nat) : List Nat :=
  (l.reverse.dropWhile (fun b => b == 0)).reverse

/-- `concat(a, b)` from `src/utils/helpers.ts`: a fresh buffer holding the
bytes of `a` followed by the bytes of `b`. -/
def concat (a b : List Nat) : List Nat := a ++ b

/-- The audio-discarding loop of `parseOnce`:
`while (received < metaint) { read; if (done || !value) throw
StreamEndedEarly; received += value.length; leftover = value }`.
The list is matched before the guard, but a read "happens" only in the
guard-true branch; when the guard is false the source is returned
untouched either way, so this is the guard-first loop of the code. -/
def audioLoop (m : Int) (received : Nat) (leftover : Chunk) :
    Source → Except IcyError (Nat × Chunk × Source)
  | [] =>
      if (received : Int) < m then .error .streamEndedEarly
      else .ok (received, leftover, ([] : Source))
  | value :: rest =>
      if (received : Int) < m then
        audioLoop m (received + value.length) value rest
      else .ok (received, leftover, value :: rest)

/-- Locating the start of the metadata region (`overflow > 0` branch takes
the tail of `leftover`; `overflow == 0` pulls one more read and throws
`MetadataReadFailed` when it has no value). -/
def readMetaStart (m : Int) (received : Nat) (leftover : Chunk) :
    Source → Except IcyError (Chunk × Source)
  | src =>
      if (received : Int) - m > 0 then
        .ok (jsSliceFrom leftover ((leftover.length : Int) - ((received : Int) - m)), src)
      else
        match src with
        | [] => .error .metadataReadFailed
        | value :: rest => .ok (value, rest)

/-- The payload-accumulation loop:
`while (metadata.length < metadataLength) { read; if (!value) break;
metadata = concat(metadata, value) }` where `metadataLength` may be `NaN`
(`none`), in which case the comparison is `false` and the loop is skipped. -/
def metaLoop (metadataLength : Option Nat) (metadata : Chunk) :
    Source → Chunk × Source
  | [] => (metadata, ([] : Source))
  | value :: rest =>
      match metadataLength with
      | none => (metadata, value :: rest)
      | some len =>
          if metadata.length < len then metaLoop metadataLength (concat metadata value) rest
          else (metadata, value :: rest)

/-- The tail of `parseOnce` from `metaStart` on: length byte, declared
length (`undefined * 16 = NaN` modelled by `none`), accumulation,
`slice(0, metadataLength)` (a `NaN` bound slices to `0`), NUL stripping. -/
def finishMeta (metaStart : Chunk) (src : Source) : ExtractOk :=
  let metadataLength := metaStart.head?.map (fun b => b * 16)
  let metadata := (metaLoop metadataLength (metaStart.drop 1) src).1
  let sliced :=
    match metadataLength with
    | none => metadata.take 0
    | some len => metadata.take len
  ⟨metaStart.head?, sliced, stripTrailingNuls sliced⟩

/-- The body of the `try` block of `parseOnce`, after the header check. -/
def parseOnceCore (m : Int) (src : Source) : Except IcyError ExtractOk :=
  match audioLoop m 0 [] src with
  | .error e => .error e
  | .ok (received, leftover, src1) =>
      match readMetaStart m received leftover src1 with
      | .error e => .error e
      | .ok (metaStart, src2) => .ok (finishMeta metaStart src2)

/-- `parseOnce` given the parsed `icy-metaint` header value
(`none` = `NaN`, `some 0` covers a missing header since `Number(null) = 0`):
the guard `if (!metaint) throw UnsupportedStream` rejects exactly `NaN`
and `0`. -/
def parseOnce (metaint : Option Int) (src : Source) : Except IcyError ExtractOk :=
  match metaint with
  | none => .error .unsupportedStream
  | some m => if m = 0 then .error .unsupportedStream else parseOnceCore m src

/-- `parseOnce` instrumented with the number of times the connection is
released (`controller.abort(); reader.releaseLock()` in the `finally`
block).  The header guard sits *before* the `try`, so the throw of
`UnsupportedStream` bypasses the `finally`; every path inside the `try`
runs the `finally` exactly once. -/
def parseOnceAborts (metaint : Option Int) (src : Source) :
    Except IcyError ExtractOk × Nat :=
  match metaint with
  | none => (.error .unsupportedStream, 0)
  | some m =>
      if m = 0 then (.error .unsupportedStream, 0)
      else (parseOnceCore m src, 1)

/-- `parseOnceCore` from an arbitrary intermediate loop state (current
`received` count and `leftover` chunk). -/
def coreFrom (m : Int) (received : Nat) (leftover : Chunk) (src : Source) :
    Except IcyError ExtractOk :=
  match audioLoop m received leftover src with
  | .error e => .error e
  | .ok (r, l, s1) =>
      match readMetaStart m r l s1 with
      | .error e => .error e
      | .ok (ms, s2) => .ok (finishMeta ms s2)

/-- The chunking-independent description of one extraction over the flat
byte sequence `bs`: fewer than `m` bytes is `StreamEndedEarly`, exactly `m`
is `MetadataReadFailed` (nothing left for the length byte), otherwise byte
`m` is the length byte `L` and the payload is the following bytes, sliced
to `L * 16`. -/
def extractFlat (m : Int) (bs : List Nat) : Except IcyError ExtractOk :=
  if (bs.length : Int) < m then .error .streamEndedEarly
  else
    match bs.drop m.toNat with
    | [] => .error .metadataReadFailed
    | l :: payload =>
        .ok ⟨some l, payload.take (l * 16), stripTrailingNuls (payload.take (l * 16))⟩

/-!
Fuelled versions of the two `while` loops, over a pull source that may be
infinite (`src n` is the result of the `n`-th `reader.read()`; `none` is a
`done` read).  `none` as the overall result means the fuel ran out at every
step, i.e. the loop had not terminated yet; a loop that returns `none` for
every fuel diverges.  These are used to settle termination: with only
non-empty chunks each iteration of either loop makes progress, while an
empty chunk (a zero-length `Uint8Array`, which is truthy) leaves the loop
state unchanged.
-/

/-- Fuelled audio-discarding loop over a possibly infinite source;
returns `received` and the next read index on exit. -/
def audioLoopF (m : Int) (src : Nat → Option Chunk) :
    Nat → Nat → Nat → Option (Except IcyError (Nat × Nat))
  | 0, _, _ => none
  | fuel + 1, received, idx =>
      if (received : Int) < m then
        match src idx with
        | none => some (.error .streamEndedEarly)
        | some value => audioLoopF m src fuel (received + value.length) (idx + 1)
      else some (.ok (received, idx))

/-- Fuelled payload-accumulation loop over a possibly infinite source. -/
def metaLoopF (metadataLength : Option Nat) (src : Nat → Option Chunk) :
    Nat → Chunk → Nat → Option (Chunk × Nat)
  | 0, _, _ => none
  | fuel + 1, metadata, idx =>
      match metadataLength with
      | none => some (metadata, idx)
      | some len =>
          if metadata.length < len then
            match src idx with
            | none => some (metadata, idx)
            | some value => metaLoopF metadataLength src fuel (concat metadata value) (idx + 1)
          else some (metadata, idx)

/-!
The metadata decoder `parseMetadata` of `src/utils/helpers.ts`:

    return { title: /StreamTitle='([^']*)'/.exec(raw)?.[1] }

A JavaScript regex `exec` scans for the leftmost match: at each start
position it tries the literal `StreamTitle='`, then `[^']*` (all following
characters up to, and not including, the next single quote), then requires
the closing quote; if the closing quote is missing the position fails and
scanning resumes one character further right.  `execStreamTitle` embeds
that scan. -/

/-- The literal part of the pattern: the characters of `StreamTitle='`. -/
def streamTitleKey : List Char :=
  ['S', 't', 'r', 'e', 'a', 'm', 'T', 'i', 't', 'l', 'e', '=', '\'']

/-- One attempt of the regex at the current position: the literal key,
then the greedy `[^']*` capture, then the mandatory closing quote. -/
def matchTitleAt (s : List Char) : Option (List Char) :=
  if streamTitleKey.isPrefixOf s then
    if (s.drop streamTitleKey.length).dropWhile (fun c => c ≠ '\'') = [] then none
    else some ((s.drop streamTitleKey.length).takeWhile (fun c => c ≠ '\''))
  else none

/-- The leftmost-match scan of `exec`. -/
def execStreamTitle : List Char → Option (List Char)
  | [] => none
  | c :: rest =>
      match matchTitleAt (c :: rest) with
      | some v => some v
      | none => execStreamTitle rest

/-- `parseMetadata(raw)` from `src/utils/helpers.ts`: the extracted
`title` field (`none` is JavaScript `undefined`, from `?.[1]` when `exec`
returns `null`).  Total on every input string; the record
`{ title: ... }` is always produced. -/
def parseMetadata (raw : List Char) : Option (List Char) :=
  execStreamTitle raw

/-! ### Helper lemmas -/

theorem dropWhile_append_of_forall {α : Type} {p : α → Bool} {l1 : List α} (l2 : List α)
    (h : ∀ a ∈ l1, p a) : (l1 ++ l2).dropWhile p = l2.dropWhile p := by
  induction l1 with
  | nil => rfl
  | cons a t ih =>
      simp [List.dropWhile_cons, h a (by simp),
        ih (fun x hx => h x (by simp [hx]))]

theorem dropWhile_eq_self_of_head {α : Type} {p : α → Bool} {l : List α}
    (h : ∀ a ∈ l.head?, p a = false) : l.dropWhile p = l := by
  cases l with
  | nil => rfl
  | cons a t => simp [List.dropWhile_cons, h a (by simp)]

theorem takeWhile_append_cons {α : Type} {p : α → Bool} {l1 : List α} (b : α) (l2 : List α)
    (h : ∀ a ∈ l1, p a) (hb : p b = false) :
    (l1 ++ b :: l2).takeWhile p = l1 := by
  induction l1 with
  | nil => simp [List.takeWhile_cons, hb]
  | cons a t ih =>
      simp [List.takeWhile_cons, h a (by simp),
        ih (fun x hx => h x (by simp [hx]))]

theorem dropWhile_append_cons {α : Type} {p : α → Bool} {l1 : List α} (b : α) (l2 : List α)
    (h : ∀ a ∈ l1, p a) (hb : p b = false) :
    (l1 ++ b :: l2).dropWhile p = b :: l2 := by
  induction l1 with
  | nil => simp [List.dropWhile_cons, hb]
  | cons a t ih =>
      simp [List.dropWhile_cons, h a (by simp),
        ih (fun x hx => h x (by simp [hx]))]

theorem isPrefixOf_append {α : Type} [BEq α] [LawfulBEq α] (l1 l2 : List α) :
    l1.isPrefixOf (l1 ++ l2) = true := by
  induction l1 with
  | nil => simp [List.isPrefixOf]
  | cons a t ih => simp [List.isPrefixOf, ih]

/-- Defining equation of `audioLoop` on a cons source. -/
theorem audioLoop_cons (m : Int) (r : Nat) (l v : Chunk) (rest : Source) :
    audioLoop m r l (v :: rest) =
      if (r : Int) < m then audioLoop m (r + v.length) v rest
      else .ok (r, l, v :: rest) := rfl

/-- When the guard is already false the loop returns its state untouched. -/
theorem audioLoop_exit (m : Int) (r : Nat) (l : Chunk) (s : Source)
    (h : ¬ (r : Int) < m) : audioLoop m r l s = .ok (r, l, s) := by
  cases s <;> simp [audioLoop, h]

/-- The accumulation loop, sliced to the declared length, yields the same
bytes as slicing the concatenation of everything available: the loop only
stops early once the declared length is already covered. -/
theorem metaLoop_take (len : Nat) :
    ∀ (src : Source) (md : Chunk),
      ((metaLoop (some len) md src).1).take len = (md ++ src.flatten).take len := by
  intro src
  induction src with
  | nil => intro md; simp [metaLoop]
  | cons v rest ih =>
      intro md
      by_cases h : md.length < len
      · simp only [metaLoop, if_pos h, concat, List.flatten_cons]
        rw [ih (md ++ v), List.append_assoc]
      · simp only [metaLoop, if_neg h]
        rw [List.take_append_of_le_length (by omega)]

/-- Discarding a chunk that lies strictly inside the audio region shifts
the flat description by the chunk's length. -/
theorem extractFlat_chunk_lt {d : Int} (v bs : List Nat)
    (h : (v.length : Int) < d) :
    extractFlat d (v ++ bs) = extractFlat (d - v.length) bs := by
  unfold extractFlat
  have hiff : (((v ++ bs).length : Int) < d) ↔ ((bs.length : Int) < d - v.length) := by
    simp only [List.length_append]
    push_cast
    omega
  by_cases hb : (bs.length : Int) < d - v.length
  · rw [if_pos (hiff.mpr hb), if_pos hb]
  · rw [if_neg (fun hx => hb (hiff.mp hx)), if_neg hb]
    have hd : (v ++ bs).drop d.toNat = bs.drop (d - v.length).toNat := by
      have hsplit : d.toNat = v.length + (d.toNat - v.length) := by omega
      rw [hsplit, List.drop_append]
      congr 1
      omega
    rw [hd]

/-- `finishMeta` on a non-empty `metaStart`: the length byte is the head,
the payload is the remainder fed through the accumulation loop. -/
theorem finishMeta_cons (L : Nat) (ms' : Chunk) (src : Source) :
    finishMeta (L :: ms') src =
      ⟨some L, ((metaLoop (some (L * 16)) ms' src).1).take (L * 16),
        stripTrailingNuls (((metaLoop (some (L * 16)) ms' src).1).take (L * 16))⟩ := rfl

theorem parseOnceCore_eq_coreFrom (m : Int) (src : Source) :
    parseOnceCore m src = coreFrom m 0 [] src := rfl

/-- The bridge: on a source of non-empty chunks, the demultiplexer computes
exactly the flat-byte-sequence description, independent of the chunking. -/
theorem coreFrom_eq_extractFlat (m : Int) :
    ∀ (src : Source) (received : Nat) (leftover : Chunk),
      (∀ c ∈ src, c ≠ []) → (received : Int) < m →
      coreFrom m received leftover src = extractFlat (m - received) src.flatten := by
  intro src
  induction src with
  | nil =>
      intro r l _ hr
      simp only [coreFrom, audioLoop, if_pos hr, List.flatten_nil]
      unfold extractFlat
      rw [if_pos (by simpa using hr)]
  | cons v rest ih =>
      intro r l hne hr
      have hv : v ≠ [] := hne v (by simp)
      have hvlen : 1 ≤ v.length := by
        cases v with
        | nil => exact absurd rfl hv
        | cons _ _ => simp
      by_cases h1 : ((r : Int) + v.length) < m
      · -- the whole chunk is still audio: one more loop iteration
        have step : coreFrom m r l (v :: rest) = coreFrom m (r + v.length) v rest := by
          unfold coreFrom
          rw [audioLoop_cons, if_pos hr]
        rw [step, ih (r + v.length) v (fun c hc => hne c (by simp [hc])) (by omega)]
        rw [List.flatten_cons, extractFlat_chunk_lt v rest.flatten (by omega)]
        congr 1
        push_cast
        ring
      · -- the loop exits at this chunk
        have hguard : ¬ ((r + v.length : Nat) : Int) < m := by push_cast at h1 ⊢; omega
        have hex : audioLoop m r l (v :: rest) = .ok (r + v.length, v, rest) := by
          rw [audioLoop_cons, if_pos hr]
          exact audioLoop_exit m (r + v.length) v rest hguard
        unfold coreFrom
        rw [hex]
        by_cases hov : ((r + v.length : Nat) : Int) - m > 0
        · -- overflow > 0: metadata starts inside `v`
          have hlt : (m - (r : Int)) < v.length := by push_cast at hov; omega
          have hge0 : 0 ≤ m - (r : Int) := by omega
          have hstart : ((v.length : Int) - (((r + v.length : Nat) : Int) - m)) = m - r := by
            push_cast
            ring
          have hslice : jsSliceFrom v ((v.length : Int) - (((r + v.length : Nat) : Int) - m))
              = v.drop (m - (r : Int)).toNat := by
            rw [hstart]
            unfold jsSliceFrom
            rw [if_neg (by omega)]
          have htoNat : (m - (r : Int)).toNat ≤ v.length := by omega
          simp only [readMetaStart, if_pos hov, hslice]
          cases hsplit : v.drop (m - (r : Int)).toNat with
          | nil =>
              exfalso
              have := congrArg List.length hsplit
              simp only [List.length_drop, List.length_nil] at this
              omega
          | cons L ms' =>
              unfold extractFlat
              rw [if_neg (by simp only [List.flatten_cons, List.length_append]; push_cast; omega)]
              have hdrop : ((v :: rest).flatten).drop (m - (r : Int)).toNat
                  = L :: (ms' ++ rest.flatten) := by
                rw [List.flatten_cons, List.drop_append_of_le_length htoNat, hsplit]
                rfl
              rw [hdrop, finishMeta_cons, metaLoop_take]
        · -- overflow == 0: one more read supplies `metaStart`
          have heq : ((r : Int)) + v.length = m := by push_cast at hov; omega
          simp only [readMetaStart, if_neg hov]
          cases rest with
          | nil =>
              unfold extractFlat
              rw [if_neg (by simp only [List.flatten_cons, List.flatten_nil,
                    List.append_nil]; omega)]
              have hdrop : ((v :: ([] : Source)).flatten).drop (m - (r : Int)).toNat = [] := by
                apply List.drop_eq_nil_of_le
                simp only [List.flatten_cons, List.flatten_nil, List.append_nil]
                omega
              rw [hdrop]
          | cons c rest' =>
              have hc : c ≠ [] := hne c (by simp)
              cases c with
              | nil => exact absurd rfl hc
              | cons L ms' =>
                  unfold extractFlat
                  rw [if_neg (by simp only [List.flatten_cons, List.length_append,
                        List.length_cons]; push_cast; omega)]
                  have htoNat : (m - (r : Int)).toNat = v.length := by omega
                  have hdrop : ((v :: (L :: ms') :: rest').flatten).drop (m - (r : Int)).toNat
                      = L :: (ms' ++ rest'.flatten) := by
                    simp only [List.flatten_cons]
                    rw [htoNat, List.drop_left]
                    rfl
                  rw [hdrop]
                  show Except.ok (finishMeta (L :: ms') rest') =
                    Except.ok (⟨some L, (ms' ++ rest'.flatten).take (L * 16),
                      stripTrailingNuls ((ms' ++ rest'.flatten).take (L * 16))⟩ : ExtractOk)
                  rw [finishMeta_cons, metaLoop_take]

/-- Defining equation of `parseOnce` on a numeric header value. -/
theorem parseOnce_some (m : Int) (src : Source) :
    parseOnce (some m) src =
      if m = 0 then .error .unsupportedStream else parseOnceCore m src := rfl

/-- Defining equation of `parseOnceAborts` on a numeric header value. -/
theorem parseOnceAborts_some (m : Int) (src : Source) :
    parseOnceAborts (some m) src =
      if m = 0 then (.error .unsupportedStream, 0) else (parseOnceCore m src, 1) := rfl

/-- If the audio loop fails, `parseOnceCore` propagates its error. -/
theorem parseOnceCore_error_audio {m : Int} {src : Source} {e : IcyError}
    (hA : audioLoop m 0 [] src = .error e) : parseOnceCore m src = .error e := by
  unfold parseOnceCore
  rw [hA]

/-- If the audio loop exits, `parseOnceCore` continues with `readMetaStart`. -/
theorem parseOnceCore_ok_audio {m : Int} {src : Source} {r : Nat} {l : Chunk} {s1 : Source}
    (hA : audioLoop m 0 [] src = .ok (r, l, s1)) :
    parseOnceCore m src =
      match readMetaStart m r l s1 with
      | .error e => .error e
      | .ok (ms, s2) => .ok (finishMeta ms s2) := by
  unfold parseOnceCore
  rw [hA]

/-- On a positive interval and a source of non-empty chunks, `parseOnce`
computes the flat description of the source's byte sequence: chunk
boundaries are irrelevant. -/
theorem parseOnce_eq_extractFlat (m : Int) (src : Source)
    (hm : 0 < m) (hne : ∀ c ∈ src, c ≠ []) :
    parseOnce (some m) src = extractFlat m src.flatten := by
  rw [parseOnce_some, if_neg (by omega), parseOnceCore_eq_coreFrom,
    coreFrom_eq_extractFlat m src 0 [] hne (by simpa using hm)]
  norm_num

/-- The only error the audio loop raises is `StreamEndedEarly`. -/
theorem audioLoop_error_eq (m : Int) :
    ∀ (src : Source) (r : Nat) (l : Chunk) (e : IcyError),
      audioLoop m r l src = .error e → e = .streamEndedEarly := by
  intro src
  induction src with
  | nil =>
      intro r l e h
      by_cases hg : (r : Int) < m
      · simp only [audioLoop, if_pos hg] at h
        exact (Except.error.inj h).symm
      · simp only [audioLoop, if_neg hg] at h
        cases h
  | cons v rest ih =>
      intro r l e h
      by_cases hg : (r : Int) < m
      · rw [audioLoop_cons, if_pos hg] at h
        exact ih _ _ _ h
      · rw [audioLoop_cons, if_neg hg] at h
        cases h

/-- If the source runs out of bytes (empty chunks included) before
`received` reaches the interval, the audio loop fails. -/
theorem audioLoop_short (m : Int) :
    ∀ (src : Source) (r : Nat) (l : Chunk),
      (r : Int) < m → ((r : Int) + src.flatten.length) < m →
      audioLoop m r l src = .error .streamEndedEarly := by
  intro src
  induction src with
  | nil => intro r l hr _; simp [audioLoop, hr]
  | cons v rest ih =>
      intro r l hr htot
      rw [audioLoop_cons, if_pos hr]
      have hlen : ((r + v.length : Nat) : Int) + rest.flatten.length < m := by
        simp only [List.flatten_cons, List.length_append] at htot
        push_cast at htot ⊢
        omega
      exact ih (r + v.length) v (by omega) hlen

/-- With a `NaN` declared length the accumulation loop does not run. -/
theorem metaLoop_none_fst (md : Chunk) (src : Source) :
    (metaLoop none md src).1 = md := by
  cases src <;> rfl

/-- An empty `metaStart` yields the empty extraction record: the length
byte is `undefined`, the declared length `NaN`, the raw string empty. -/
theorem finishMeta_nil (src : Source) : finishMeta [] src = ⟨none, [], []⟩ := by
  cases src <;> rfl

/-- The body of the `try` block never raises `UnsupportedStream`. -/
theorem parseOnceCore_ne_unsupported (m : Int) (src : Source) :
    parseOnceCore m src ≠ .error .unsupportedStream := by
  cases hA : audioLoop m 0 [] src with
  | error e =>
      rw [parseOnceCore_error_audio hA]
      have he := audioLoop_error_eq m src 0 [] e hA
      subst he
      simp
  | ok t =>
      obtain ⟨r, l, s1⟩ := t
      rw [parseOnceCore_ok_audio hA]
      cases hR : readMetaStart m r l s1 with
      | error e =>
          unfold readMetaStart at hR
          by_cases hov : (r : Int) - m > 0
          · rw [if_pos hov] at hR
            cases hR
          · rw [if_neg hov] at hR
            cases s1 with
            | nil =>
                have he : e = .metadataReadFailed := (Except.error.inj hR).symm
                subst he
                simp
            | cons a b => cases hR
      | ok p =>
          obtain ⟨ms, s2⟩ := p
          simp

/-! ## Claims -/

/-- C1: for every metadata interval `N > 0` and every fixed underlying
byte sequence, any two chunkings of that sequence into non-empty chunks
given to the extraction loop of `parseOnce` produce the identical result —
in particular the identical raw metadata string: chunk boundaries never
affect the outcome. -/
theorem claim1_chunking_invariant (m : Int) (cs1 cs2 : Source)
    (hm : 0 < m) (h1 : ∀ c ∈ cs1, c ≠ []) (h2 : ∀ c ∈ cs2, c ≠ [])
    (hbytes : cs1.flatten = cs2.flatten) :
    parseOnce (some m) cs1 = parseOnce (some m) cs2 := by
  rw [parseOnce_eq_extractFlat m cs1 hm h1, parseOnce_eq_extractFlat m cs2 hm h2, hbytes]

theorem claim1_witness :
    parseOnce (some 1) [[9, 1, 65, 66]] = parseOnce (some 1) [[9], [1], [65], [66]] :=
  claim1_chunking_invariant 1 [[9, 1, 65, 66]] [[9], [1], [65], [66]]
    (by decide) (by decide) (by decide) (by decide)

/-- C2: when the extraction succeeds with length byte `L`, the sliced
payload never exceeds `L * 16` bytes; when the stream supplies enough
bytes it is exactly `L * 16` bytes (bytes beyond are sliced off); and
`L = 0` yields an empty slice, an empty raw string and an unset title. -/
theorem claim2_lengthByte_times16 (m : Int) (src : Source) (res : ExtractOk) (L : Nat)
    (hm : 0 < m) (hne : ∀ c ∈ src, c ≠ [])
    (hok : parseOnce (some m) src = .ok res) (hL : res.lengthByte = some L) :
    res.sliced.length ≤ L * 16
    ∧ (m + 1 + L * 16 ≤ (src.flatten.length : Int) → res.sliced.length = L * 16)
    ∧ (L = 0 → res.sliced = [] ∧ res.raw = [] ∧ parseMetadata [] = none) := by
  rw [parseOnce_eq_extractFlat m src hm hne] at hok
  unfold extractFlat at hok
  by_cases hlt : (src.flatten.length : Int) < m
  · rw [if_pos hlt] at hok
    cases hok
  · rw [if_neg hlt] at hok
    cases hdrop : src.flatten.drop m.toNat with
    | nil =>
        rw [hdrop] at hok
        cases hok
    | cons L' payload =>
        rw [hdrop] at hok
        have hres := Except.ok.inj hok
        subst hres
        have hLL : L' = L := Option.some.inj hL
        subst hLL
        have hplen : src.flatten.length = m.toNat + 1 + payload.length := by
          have hcl := congrArg List.length hdrop
          simp only [List.length_drop, List.length_cons] at hcl
          omega
        refine ⟨?_, ?_, ?_⟩
        · show (payload.take (L' * 16)).length ≤ L' * 16
          simp [List.length_take]
        · intro hge
          show (payload.take (L' * 16)).length = L' * 16
          simp only [List.length_take]
          omega
        · intro hL0
          subst hL0
          refine ⟨?_, ?_, rfl⟩
          · show payload.take (0 * 16) = []
            simp
          · show stripTrailingNuls (payload.take (0 * 16)) = []
            simp [stripTrailingNuls]

theorem claim2_witness :
    (⟨some 1, List.replicate 16 0, []⟩ : ExtractOk).sliced.length = 1 * 16 := by
  have h := claim2_lengthByte_times16 1 [9 :: 1 :: List.replicate 16 0]
    ⟨some 1, List.replicate 16 0, []⟩ 1 (by decide) (by decide) (by rfl) rfl
  exact h.2.1 (by decide)

/-- C3 (amended): the audio loop fails with `StreamEndedEarly` exactly on
the end-of-stream signal (a read with `done`/no value) below the interval;
a zero-length chunk — a truthy `Uint8Array` — does not fail and does not
advance the loop: prepending it leaves the whole extraction unchanged. -/
theorem claim3_eos_streamEndedEarly (m : Int) (src : Source) (hm : 0 < m) :
    ((src.flatten.length : Int) < m →
        parseOnce (some m) src = .error .streamEndedEarly)
    ∧ parseOnce (some m) ([] :: src) = parseOnce (some m) src := by
  constructor
  · intro hshort
    rw [parseOnce_some, if_neg (by omega)]
    exact parseOnceCore_error_audio
      (audioLoop_short m src 0 [] (by simpa using hm) (by simpa using hshort))
  · rw [parseOnce_some, parseOnce_some, if_neg (by omega), if_neg (by omega)]
    unfold parseOnceCore
    rw [audioLoop_cons, if_pos (by simpa using hm)]
    simp

/-- C3 counterexample: with interval 1, a source delivering a zero-length
chunk first (cumulative consumed 0 < 1) does not fail with
`StreamEndedEarly` as the claim requires; the extraction continues with
the following chunk and succeeds. -/
theorem claim3_counterexample :
    parseOnce (some 1) [[], [5, 0]] = .ok ⟨some 0, [], []⟩ := rfl

theorem claim3_witness :
    parseOnce (some 2) [[7]] = .error .streamEndedEarly
    ∧ parseOnce (some 2) ([] :: [[7]]) = parseOnce (some 2) [[7]] := by
  have h := claim3_eos_streamEndedEarly 2 [[7]] (by decide)
  exact ⟨h.1 (by decide), h.2⟩

/-- C4 (amended): when the audio loop exits exactly on the boundary
(overflow 0), exactly one further read is made; if it signals
end-of-stream (no value) the extraction fails with `MetadataReadFailed`;
if it instead delivers a zero-length chunk (truthy) the extraction
succeeds with an `undefined` length byte and an empty raw string. -/
theorem claim4_boundary_read (m : Int) (src : Source) (c : Chunk) (hm : 0 < m) :
    ((∀ ch ∈ src, ch ≠ []) → (src.flatten.length : Int) = m →
        parseOnce (some m) src = .error .metadataReadFailed)
    ∧ ((c.length : Int) = m →
        parseOnce (some m) (c :: [] :: src) = .ok ⟨none, [], []⟩) := by
  constructor
  · intro hne hlen
    rw [parseOnce_eq_extractFlat m src hm hne]
    unfold extractFlat
    rw [if_neg (by omega)]
    have hdrop : src.flatten.drop m.toNat = [] := List.drop_eq_nil_of_le (by omega)
    rw [hdrop]
  · intro hc
    rw [parseOnce_some, if_neg (by omega)]
    have hA : audioLoop m 0 [] (c :: [] :: src) = .ok (0 + c.length, c, [] :: src) := by
      rw [audioLoop_cons, if_pos (by simpa using hm)]
      exact audioLoop_exit m (0 + c.length) c ([] :: src) (by push_cast; omega)
    rw [parseOnceCore_ok_audio hA]
    have hR : readMetaStart m (0 + c.length) c ([] :: src) = .ok ([], src) := by
      unfold readMetaStart
      rw [if_neg (by push_cast; omega)]
    rw [hR]
    show Except.ok (finishMeta [] src) = Except.ok (⟨none, [], []⟩ : ExtractOk)
    rw [finishMeta_nil]

/-- C4 counterexample: with interval 1 and the boundary hit exactly, a
zero-length chunk on the extra read does not fail with
`MetadataReadFailed` as the claim requires; the extraction succeeds with
an empty raw string. -/
theorem claim4_counterexample :
    parseOnce (some 1) [[9], []] = .ok ⟨none, [], []⟩ := rfl

theorem claim4_witness :
    parseOnce (some 2) [[7, 8]] = .error .metadataReadFailed
    ∧ parseOnce (some 2) ([7, 8] :: [] :: [[7, 8]]) = .ok ⟨none, [], []⟩ := by
  have h := claim4_boundary_read 2 [[7, 8]] [7, 8] (by decide)
  exact ⟨h.1 (by decide) (by decide), h.2 (by decide)⟩

/-- C5 (amended): the guard `if (!metaint)` rejects with
`UnsupportedStream` exactly the header values whose numeric coercion is
`NaN` (missing/non-numeric, modelled `none`) or `0`; every other integer
value — negative ones included — passes the guard, and no later step ever
raises `UnsupportedStream`. -/
theorem claim5_unsupported_guard (src : Source) :
    parseOnce none src = .error .unsupportedStream
    ∧ parseOnce (some 0) src = .error .unsupportedStream
    ∧ (∀ m : Int, m ≠ 0 → parseOnce (some m) src ≠ .error .unsupportedStream) := by
  refine ⟨rfl, rfl, ?_⟩
  intro m hm
  rw [parseOnce_some, if_neg hm]
  exact parseOnceCore_ne_unsupported m src

/-- C5 counterexample: the negative interval `-1` is not rejected
(`!(-1)` is false in JavaScript); `parseOnce` even returns successfully
without consuming any chunk, with an empty raw string. -/
theorem claim5_counterexample :
    parseOnce (some (-1)) [] = .ok ⟨none, [], []⟩
    ∧ parseOnce (some (-1)) [] ≠ .error .unsupportedStream :=
  ⟨rfl, fun h => Except.noConfusion h⟩

theorem claim5_witness :
    parseOnce none [[1, 2]] = .error .unsupportedStream
    ∧ parseOnce (some 5) [[1, 2]] ≠ .error .unsupportedStream := by
  have h := claim5_unsupported_guard [[1, 2]]
  exact ⟨h.1, h.2.2 5 (by decide)⟩

/-- C6: once the stream supplies any byte past the interval boundary the
length byte is read and the extraction cannot fail any more: end-of-stream
during payload accumulation merely stops accumulating, and the raw string
is decoded from the shorter payload (`payload.take (L * 16)` is all that
was available when that is shorter than `L * 16`). -/
theorem claim6_partial_payload_ok (m : Int) (src : Source)
    (hm : 0 < m) (hne : ∀ c ∈ src, c ≠ [])
    (hlen : m < (src.flatten.length : Int)) :
    ∃ L payload, src.flatten.drop m.toNat = L :: payload
      ∧ parseOnce (some m) src =
          .ok ⟨some L, payload.take (L * 16), stripTrailingNuls (payload.take (L * 16))⟩ := by
  rw [parseOnce_eq_extractFlat m src hm hne]
  unfold extractFlat
  rw [if_neg (by omega)]
  cases hdrop : src.flatten.drop m.toNat with
  | nil =>
      exfalso
      have hcl := congrArg List.length hdrop
      simp only [List.length_drop, List.length_nil] at hcl
      omega
  | cons L payload => exact ⟨L, payload, rfl, rfl⟩

theorem claim6_witness :
    ∃ L payload, ([[9, 1], [65]] : Source).flatten.drop (1 : Int).toNat = L :: payload
      ∧ parseOnce (some 1) [[9, 1], [65]] =
          .ok ⟨some L, payload.take (L * 16), stripTrailingNuls (payload.take (L * 16))⟩ :=
  claim6_partial_payload_ok 1 [[9, 1], [65]] (by decide) (by decide) (by decide)

/-- C7: the NUL-stripping step removes exactly the maximal run of trailing
NUL bytes and nothing else: for any payload `l` not ending in a NUL
(embedded NULs allowed) and any count `k`, stripping `l ++ 0^k` returns
`l`; with `k = 0` this says a payload with no trailing NULs is unchanged. -/
theorem claim7_strip_exact (l : List Nat) (k : Nat)
    (h : ∀ x ∈ l.getLast?, x ≠ 0) :
    stripTrailingNuls (l ++ List.replicate k 0) = l := by
  unfold stripTrailingNuls
  rw [List.reverse_append, List.reverse_replicate]
  rw [dropWhile_append_of_forall _ (fun a ha => by
    have hz := List.eq_of_mem_replicate ha
    simp [hz])]
  rw [dropWhile_eq_self_of_head (fun a ha => by
    rw [List.head?_reverse] at ha
    simp [h a ha])]
  exact List.reverse_reverse l

theorem claim7_witness :
    stripTrailingNuls ([83, 0, 65] ++ List.replicate 3 0) = [83, 0, 65] :=
  claim7_strip_exact [83, 0, 65] 3 (by simp)

/-- C8: the metadata decoder is total — it always returns the record's
title field, `none` (JavaScript `undefined`) when nothing matches, and no
input is an error: the three reference examples hold, and in general the
title is exactly the text between the first pair of single quotes after
`StreamTitle=`: for any quote-free value `v`, decoding
`StreamTitle='v'⋯` yields `v` whatever follows the closing quote
(unrecognized keys are simply part of the unmatched remainder). -/
theorem claim8_decoder_spec :
    parseMetadata ("StreamTitle='Artist - Song';".toList) = some ("Artist - Song".toList)
    ∧ parseMetadata [] = none
    ∧ parseMetadata ("StreamTitle='';".toList) = some []
    ∧ ∀ (v rest : List Char), '\'' ∉ v →
        parseMetadata (streamTitleKey ++ (v ++ '\'' :: rest)) = some v := by
  refine ⟨rfl, rfl, rfl, ?_⟩
  intro v rest hv
  have hmatch : matchTitleAt (streamTitleKey ++ (v ++ '\'' :: rest)) = some v := by
    unfold matchTitleAt
    rw [if_pos (isPrefixOf_append streamTitleKey (v ++ '\'' :: rest))]
    rw [List.drop_left]
    rw [dropWhile_append_cons '\'' rest
      (fun a ha => by
        simp only [decide_eq_true_eq]
        exact fun heq => hv (heq ▸ ha))
      (by simp)]
    rw [if_neg (by simp)]
    rw [takeWhile_append_cons '\'' rest
      (fun a ha => by
        simp only [decide_eq_true_eq]
        exact fun heq => hv (heq ▸ ha))
      (by simp)]
  have hstep : execStreamTitle (streamTitleKey ++ (v ++ '\'' :: rest)) =
      match matchTitleAt (streamTitleKey ++ (v ++ '\'' :: rest)) with
      | some w => some w
      | none => execStreamTitle (streamTitleKey.drop 1 ++ (v ++ '\'' :: rest)) := rfl
  unfold parseMetadata
  rw [hstep, hmatch]

theorem claim8_witness :
    parseMetadata (streamTitleKey ++ (['Y'] ++ '\'' :: [';'])) = some ['Y'] :=
  claim8_decoder_spec.2.2.2 ['Y'] [';'] (by decide)

/-- C9 (reflecting the code as written): the `UnsupportedStream` throw at
the header check sits *before* the `try`/`finally` block, so on that exit
path the connection is never released — `0` runs of
`controller.abort(); reader.releaseLock()` — while every terminating path
that enters the `try` releases exactly once, success or failure. -/
theorem claim9_release_counts :
    parseOnceAborts none [[1, 2, 3]] = (.error .unsupportedStream, 0)
    ∧ parseOnceAborts (some 0) [[1, 2, 3]] = (.error .unsupportedStream, 0)
    ∧ parseOnceAborts (some 1) [[1, 2, 3]] = (.ok ⟨some 2, [3], [3]⟩, 1)
    ∧ parseOnceAborts (some 8) [[1, 2, 3]] = (.error .streamEndedEarly, 1)
    ∧ (∀ (src : Source), (parseOnceAborts none src).2 = 0)
    ∧ (∀ (m : Int) (src : Source), m ≠ 0 → (parseOnceAborts (some m) src).2 = 1) := by
  refine ⟨rfl, rfl, rfl, rfl, fun src => rfl, ?_⟩
  intro m src hm
  rw [parseOnceAborts_some, if_neg hm]

theorem claim9_witness : (parseOnceAborts (some 3) [[1], [2]]).2 = 1 :=
  claim9_release_counts.2.2.2.2.2 3 [[1], [2]] (by decide)

/-- C10: under the precondition that every delivered chunk is non-empty,
both pull loops terminate on every — possibly infinite — source: the
audio loop exits within `interval - received` reads and the accumulation
loop within `declared - accumulated` reads.  Without the precondition
termination fails: a zero-length chunk leaves the loop state unchanged,
and on the all-empty-chunks source both loops exhaust any amount of
fuel. -/
theorem claim10_loop_termination :
    (∀ (m : Int) (src : Nat → Option Chunk) (received idx fuel : Nat),
        (∀ n c, src n = some c → c ≠ []) → m.toNat - received < fuel →
        (audioLoopF m src fuel received idx).isSome = true)
    ∧ (∀ (m : Int) (received idx fuel : Nat), (received : Int) < m →
        audioLoopF m (fun _ => some []) fuel received idx = none)
    ∧ (∀ (len : Nat) (src : Nat → Option Chunk) (metadata : Chunk) (idx fuel : Nat),
        (∀ n c, src n = some c → c ≠ []) → len - metadata.length < fuel →
        (metaLoopF (some len) src fuel metadata idx).isSome = true)
    ∧ (∀ (len : Nat) (metadata : Chunk) (idx fuel : Nat), metadata.length < len →
        metaLoopF (some len) (fun _ => some []) fuel metadata idx = none) := by
  refine ⟨?_, ?_, ?_, ?_⟩
  · intro m src received idx fuel hne
    induction fuel generalizing received idx with
    | zero => intro h; omega
    | succ fuel ih =>
        intro hfuel
        by_cases hg : (received : Int) < m
        · simp only [audioLoopF, if_pos hg]
          cases hsrc : src idx with
          | none => simp
          | some c =>
              have hc : c ≠ [] := hne idx c hsrc
              have hlen : 1 ≤ c.length := by
                cases c with
                | nil => exact absurd rfl hc
                | cons _ _ => simp
              exact ih (received + c.length) (idx + 1) (by omega)
        · simp only [audioLoopF, if_neg hg]
          simp
  · intro m received idx fuel
    induction fuel generalizing received idx with
    | zero => intro _; rfl
    | succ fuel ih =>
        intro hg
        simp only [audioLoopF, if_pos hg]
        exact ih received (idx + 1) hg
  · intro len src metadata idx fuel hne
    induction fuel generalizing metadata idx with
    | zero => intro h; omega
    | succ fuel ih =>
        intro hfuel
        by_cases hg : metadata.length < len
        · simp only [metaLoopF, if_pos hg]
          cases hsrc : src idx with
          | none => simp
          | some c =>
              have hc : c ≠ [] := hne idx c hsrc
              have hlen : 1 ≤ c.length := by
                cases c with
                | nil => exact absurd rfl hc
                | cons _ _ => simp
              refine ih (concat metadata c) (idx + 1) ?_
              simp only [concat, List.length_append]
              omega
        · simp only [metaLoopF, if_neg hg]
          simp
  · intro len metadata idx fuel
    induction fuel generalizing metadata idx with
    | zero => intro _; rfl
    | succ fuel ih =>
        intro hg
        simp only [metaLoopF, if_pos hg]
        refine ih (concat metadata []) (idx + 1) ?_
        simpa [concat] using hg

theorem claim10_witness :
    (audioLoopF 2 (fun _ => some [7]) 3 0 0).isSome = true
    ∧ audioLoopF 2 (fun _ => some []) 5 0 0 = none
    ∧ (metaLoopF (some 1) (fun _ => some [7]) 2 [] 0).isSome = true
    ∧ metaLoopF (some 1) (fun _ => some []) 4 [] 0 = none := by
  have h := claim10_loop_termination
  refine ⟨h.1 2 (fun _ => some [7]) 0 0 3 ?_ (by decide),
          h.2.1 2 0 0 5 (by decide),
          h.2.2.1 1 (fun _ => some [7]) [] 0 2 ?_ (by decide),
          h.2.2.2 1 [] 0 4 (by decide)⟩
  · intro n c hc
    injection hc with h1
    subst h1
    decide
  · intro n c hc
    injection hc with h1
    subst h1
    decide
